import Mathlib

set_option maxHeartbeats 1000000

/-!
Shallow embedding of `parse_stp_history.py`: the history-walking ownership
attribution engine (`calculate_stats`), the identity-normalisation helper
(`transform_name`) and the final per-path classifier.

Modelling conventions:
* Python `dict`s become association lists (`List (String × α)`) with the
  dict operations `setk` (assignment: replace in place or append), `getk`
  (lookup) and `delk` (deletion of the key).
* Python `set`s of names become `Finset String`.
* A commit timestamp is its integer epoch second.  The Python code builds a
  timezone-aware `datetime` from the epoch second and the author offset;
  aware datetimes compare by instant, so the offset never affects any
  comparison the program performs and is dropped from the model.
* Every `assert`, `KeyError` and `RuntimeError` becomes an explicit
  `Except WalkError` result: any of them aborts the whole computation.
-/

inductive GitDelta where
  | added
  | conflicted
  | copied
  | deleted
  | ignored
  | modified
  | renamed
  | typechange
  | unmodified
  | unreadable
  | untracked
deriving DecidableEq, Repr

/-- The printable name of a git delta status (`get_git_type`). -/
def get_git_type : GitDelta → String
  | .added => "GIT_DELTA_ADDED"
  | .conflicted => "GIT_DELTA_CONFLICTED"
  | .copied => "GIT_DELTA_COPIED"
  | .deleted => "GIT_DELTA_DELETED"
  | .ignored => "GIT_DELTA_IGNORED"
  | .modified => "GIT_DELTA_MODIFIED"
  | .renamed => "GIT_DELTA_RENAMED"
  | .typechange => "GIT_DELTA_TYPECHANGE"
  | .unmodified => "GIT_DELTA_UNMODIFIED"
  | .unreadable => "GIT_DELTA_UNREADABLE"
  | .untracked => "GIT_DELTA_UNTRACKED"

/-- A change record: `delta.old_file.path`, `delta.new_file.path`,
`delta.status`. -/
structure Delta where
  old : String
  new : String
  status : GitDelta
deriving DecidableEq, Repr

/-- A commit record as the engine consumes it: author display name, author
timestamp (epoch seconds) and the list of change records of its diff. -/
structure Commit where
  author : String
  time : Int
  deltas : List Delta
deriving DecidableEq, Repr

/-- The distinguishable abort causes of the walk: a failed `assert`, a
`KeyError` on a dict access, or the `RuntimeError` naming an unhandled
change kind. -/
inductive WalkError where
  | assertFailed (what : String)
  | keyError (path : String)
  | unhandled (kindName : String)
deriving DecidableEq, Repr

/-- Python dict assignment `m[k] = v`: replace the value at an existing key
in place, otherwise append the binding. -/
def setk {α : Type} : List (String × α) → String → α → List (String × α)
  | [], k, v => [(k, v)]
  | (k', v') :: rest, k, v =>
    if k' = k then (k, v) :: rest else (k', v') :: setk rest k v

/-- Python dict lookup `m.get(k)`. -/
def getk {α : Type} : List (String × α) → String → Option α
  | [], _ => none
  | (k', v') :: rest, k => if k' = k then some v' else getk rest k

/-- Python dict deletion `del m[k]` (the entry with key `k` is removed; in
every dict the engine builds each key occurs at most once). -/
def delk {α : Type} : List (String × α) → String → List (String × α)
  | [], _ => []
  | (k', v') :: rest, k =>
    if k' = k then delk rest k else (k', v') :: delk rest k

/-- Does the character list `needle` start the character list given second?
Used to implement the Python substring test `needle in hay`. -/
def startsWith : List Char → List Char → Bool
  | [], _ => true
  | _ :: _, [] => false
  | a :: as, b :: bs => a == b && startsWith as bs

/-- Python substring containment `needle in hay` on character lists. -/
def containsSub (needle : List Char) : List Char → Bool
  | [] => needle.isEmpty
  | c :: rest => startsWith needle (c :: rest) || containsSub needle rest

/-- Python `str.lower()` (ASCII case folding). -/
def lowerStr (s : String) : String := String.mk (s.data.map Char.toLower)

/-- Helper for Python `str.title()`: a letter is uppercased when the
previous character is not a letter, lowercased otherwise. -/
def titleAux : Bool → List Char → List Char
  | _, [] => []
  | prevAlpha, c :: rest =>
    (if c.isAlpha then (if prevAlpha then c.toLower else c.toUpper) else c)
      :: titleAux c.isAlpha rest

/-- Python `str.title()` (ASCII letters). -/
def titleStr (s : String) : String := String.mk (titleAux false s.data)

/-- The distinguished contributor marker, `VIJAY_NAME`. -/
def VIJAY_NAME : String := "Vijay Ganesh"

/-- Identity normalisation, `transform_name`.  A raw name whose
lowercasing contains the lowercased marker "Ganesh" resolves to the fixed
two-name set; any other raw name resolves to the singleton of its
title-cased form. -/
def transform_name (name : String) : Finset String :=
  if containsSub (lowerStr "Ganesh").data (lowerStr name).data then
    {VIJAY_NAME, "David L. Dill"}
  else
    {titleStr name}

/-- The mutable state of the attribution engine inside `calculate_stats`:
`owners`, `created_on`, `all_contributors`, `last_vijay_date`. -/
structure EngineState where
  owners : List (String × Finset String)
  created_on : List (String × Int)
  all_contributors : Finset String
  last_vijay_date : Option Int
deriving DecidableEq

instance : DecidableEq (Except WalkError EngineState) := fun a b =>
  match a, b with
  | .ok x, .ok y =>
    if h : x = y then .isTrue (by rw [h])
    else .isFalse (fun hc => by cases hc; exact h rfl)
  | .error x, .error y =>
    if h : x = y then .isTrue (by rw [h])
    else .isFalse (fun hc => by cases hc; exact h rfl)
  | .ok _, .error _ => .isFalse (fun hc => by cases hc)
  | .error _, .ok _ => .isFalse (fun hc => by cases hc)

/-- The engine state before the walk starts. -/
def initState : EngineState := ⟨[], [], ∅, none⟩

/-- The contributor identity `calculate_stats` resolves for a change: the
distinguished identity on the first commit, otherwise the normalised commit
author. -/
def resolved_contributor (first : Bool) (author : String) : Finset String :=
  if first = true then transform_name VIJAY_NAME else transform_name author

/-- The `first or delta.status in [ADDED, MODIFIED]` branch of the delta
loop of `calculate_stats` (lines 110-159 of the script). -/
def processAM (first : Bool) (author : String) (time : Int)
    (s : EngineState) (d : Delta) : Except WalkError EngineState :=
  if d.old = d.new then
    if first = true ∧ d.status ≠ GitDelta.added then
      .error (.assertFailed "delta.status == GIT_DELTA_ADDED")
    else
      let contributor := resolved_contributor first author
      let lvd := if VIJAY_NAME ∈ contributor then some time
                 else s.last_vijay_date
      if d.status = GitDelta.added then
        match getk s.owners d.new with
        | some _ => .error (.assertFailed "delta.new_file.path not in owners")
        | none =>
          .ok { owners := setk s.owners d.new contributor
                created_on := setk s.created_on d.new time
                all_contributors := s.all_contributors ∪ contributor
                last_vijay_date := lvd }
      else
        match getk s.owners d.new with
        | none => .error (.assertFailed "delta.new_file.path in owners")
        | some cur =>
          .ok { owners := setk s.owners d.new (cur ∪ contributor)
                created_on := s.created_on
                all_contributors := s.all_contributors ∪ contributor
                last_vijay_date := lvd }
  else
    .error (.assertFailed "delta.old_file.path == delta.new_file.path")

/-- The `delta.status in [GIT_DELTA_RENAMED, GIT_DELTA_DELETED]` branch of
the delta loop of `calculate_stats` (lines 161-180 of the script): the
rename half copies ownership and creation time to the new path, then both
kinds delete the old path from both maps. -/
def processRD (s : EngineState) (d : Delta) : Except WalkError EngineState :=
  let step1 : Except WalkError EngineState :=
    if d.status = GitDelta.renamed then
      match getk s.owners d.new with
      | some _ => .error (.assertFailed "delta.new_file.path not in owners")
      | none =>
        match getk s.owners d.old, getk s.created_on d.old with
        | some ov, some ct =>
          .ok { s with owners := setk s.owners d.new ov
                       created_on := setk s.created_on d.new ct }
        | none, _ => .error (.keyError d.old)
        | some _, none => .error (.keyError d.old)
    else
      .ok s
  match step1 with
  | .error e => .error e
  | .ok s1 =>
    match getk s1.owners d.old, getk s1.created_on d.old with
    | some _, some _ =>
      .ok { s1 with owners := delk s1.owners d.old
                    created_on := delk s1.created_on d.old }
    | none, _ => .error (.keyError d.old)
    | some _, none => .error (.keyError d.old)

/-- One iteration of the delta loop of `calculate_stats`. -/
def processDelta (first : Bool) (author : String) (time : Int)
    (s : EngineState) (d : Delta) : Except WalkError EngineState :=
  if first = true ∨ d.status = GitDelta.added ∨ d.status = GitDelta.modified then
    processAM first author time s d
  else if d.status = GitDelta.renamed ∨ d.status = GitDelta.deleted then
    processRD s d
  else
    .error (.unhandled (get_git_type d.status))

/-- The delta loop of `calculate_stats` over one commit's change list. -/
def runDeltas (first : Bool) (author : String) (time : Int)
    (s : EngineState) : List Delta → Except WalkError EngineState
  | [] => .ok s
  | d :: rest =>
    match processDelta first author time s d with
    | .error e => .error e
    | .ok s1 => runDeltas first author time s1 rest

/-- Processing one commit of the walk. -/
def processCommit (first : Bool) (s : EngineState) (c : Commit) :
    Except WalkError EngineState :=
  runDeltas first c.author c.time s c.deltas

/-- The commit loop after the first commit (`first` is `False`). -/
def runCommits (s : EngineState) : List Commit → Except WalkError EngineState
  | [] => .ok s
  | c :: rest =>
    match processCommit false s c with
    | .error e => .error e
    | .ok s1 => runCommits s1 rest

/-- The whole walk of `calculate_stats`: the first commit is processed with
the `first` flag set, every later commit with it cleared. -/
def processHistory : List Commit → Except WalkError EngineState
  | [] => .ok initState
  | c :: rest =>
    match processCommit true initState c with
    | .error e => .error e
    | .ok s1 => runCommits s1 rest

/-- A single change record together with the author and timestamp of the
commit it belongs to; used to state properties of arbitrary record
sequences spanning commits. -/
structure ChangeRec where
  author : String
  time : Int
  delta : Delta
deriving DecidableEq, Repr

/-- Processing a sequence of change records (each after the first commit,
so with the `first` flag cleared). -/
def runRecs (s : EngineState) : List ChangeRec → Except WalkError EngineState
  | [] => .ok s
  | r :: rest =>
    match processDelta false r.author r.time s r.delta with
    | .error e => .error e
    | .ok s1 => runRecs s1 rest

/-- The distinguished identity set of the report loop, `vijay_set`. -/
def vijay_set : Finset String := transform_name VIJAY_NAME

/-- The classifier of the report loop of `calculate_stats` (lines 210-223):
ownership label of one live path from its owner set, its creation time and
the last distinguished-contributor commit time. -/
def classify (owners : Finset String) (added_date : Int) (lvd : Int) :
    String :=
  if owners = vijay_set then "Complete"
  else if (vijay_set ∩ owners).Nonempty then "Partial"
  else if added_date < lvd then "Inherited"
  else "None"

/-! ### Dictionary lemmas -/

theorem getk_setk_self {α : Type} (m : List (String × α)) (k : String) (v : α) :
    getk (setk m k v) k = some v := by
  induction m with
  | nil => simp [setk, getk]
  | cons hd tl ih =>
    obtain ⟨k', v'⟩ := hd
    by_cases h : k' = k
    · simp [setk, getk, h]
    · simp [setk, getk, h, ih]

theorem getk_setk_ne {α : Type} (m : List (String × α)) (k k' : String) (v : α)
    (h : k' ≠ k) : getk (setk m k v) k' = getk m k' := by
  induction m with
  | nil => simp [setk, getk, Ne.symm h]
  | cons hd tl ih =>
    obtain ⟨k₀, v₀⟩ := hd
    by_cases h0 : k₀ = k
    · subst h0
      simp [setk, getk, Ne.symm h]
    · simp only [setk, if_neg h0, getk]
      by_cases h1 : k₀ = k'
      · simp [h1]
      · simp [h1, ih]

theorem getk_delk_self {α : Type} (m : List (String × α)) (k : String) :
    getk (delk m k) k = none := by
  induction m with
  | nil => simp [delk, getk]
  | cons hd tl ih =>
    obtain ⟨k₀, v₀⟩ := hd
    by_cases h0 : k₀ = k
    · simp [delk, h0, ih]
    · simp [delk, getk, h0, ih]

theorem getk_delk_ne {α : Type} (m : List (String × α)) (k k' : String)
    (h : k' ≠ k) : getk (delk m k) k' = getk m k' := by
  induction m with
  | nil => simp [delk]
  | cons hd tl ih =>
    obtain ⟨k₀, v₀⟩ := hd
    by_cases h0 : k₀ = k
    · subst h0
      simp [delk, getk, Ne.symm h, ih]
    · simp only [delk, if_neg h0, getk]
      by_cases h1 : k₀ = k'
      · simp [h1]
      · simp [h1, ih]

/-- The key list of a dict. -/
def keysOf {α : Type} (m : List (String × α)) : List String := m.map Prod.fst

theorem keysOf_setk {α : Type} (m : List (String × α)) (k : String) (v : α) :
    keysOf (setk m k v) =
      if k ∈ keysOf m then keysOf m else keysOf m ++ [k] := by
  simp only [keysOf]
  induction m with
  | nil => simp [setk]
  | cons hd tl ih =>
    obtain ⟨k₀, v₀⟩ := hd
    by_cases h0 : k₀ = k
    · subst h0
      simp [setk]
    · simp only [setk, if_neg h0, List.map_cons, List.mem_cons]
      by_cases h1 : k ∈ tl.map Prod.fst
      · simp [h1, ih, Ne.symm h0]
      · simp [h1, ih, Ne.symm h0]

theorem keysOf_delk {α : Type} (m : List (String × α)) (k : String) :
    keysOf (delk m k) = (keysOf m).filter (fun x => !decide (x = k)) := by
  simp only [keysOf]
  induction m with
  | nil => simp [delk]
  | cons hd tl ih =>
    obtain ⟨k₀, v₀⟩ := hd
    by_cases h0 : k₀ = k
    · subst h0
      simp [delk, List.filter_cons, ih]
    · simp [delk, h0, List.filter_cons, ih]

theorem getk_mem_keysOf {α : Type} (m : List (String × α)) (k : String) (v : α)
    (h : getk m k = some v) : k ∈ keysOf m := by
  induction m with
  | nil => simp [getk] at h
  | cons hd tl ih =>
    obtain ⟨k₀, v₀⟩ := hd
    show k ∈ k₀ :: keysOf tl
    by_cases h0 : k₀ = k
    · subst h0
      exact List.mem_cons_self _ _
    · simp only [getk, if_neg h0] at h
      exact List.mem_cons_of_mem _ (ih h)

theorem getk_none_not_mem {α : Type} (m : List (String × α)) (k : String)
    (h : getk m k = none) : k ∉ keysOf m := by
  induction m with
  | nil => simp [keysOf]
  | cons hd tl ih =>
    obtain ⟨k₀, v₀⟩ := hd
    show k ∉ k₀ :: keysOf tl
    by_cases h0 : k₀ = k
    · simp [getk, h0] at h
    · simp only [getk, if_neg h0] at h
      simp only [List.mem_cons, not_or]
      exact ⟨Ne.symm h0, ih h⟩

/-! ### Substring-search correctness -/

theorem startsWith_iff (n h : List Char) :
    startsWith n h = true ↔ ∃ t, h = n ++ t := by
  induction n generalizing h with
  | nil => simp [startsWith]
  | cons a as ih =>
    cases h with
    | nil =>
      simp only [startsWith, List.cons_append]
      constructor
      · intro hx
        exact absurd hx (by simp)
      · rintro ⟨t, ht⟩
        exact absurd ht (by simp)
    | cons b bs =>
      simp only [startsWith, Bool.and_eq_true, beq_iff_eq, ih,
        List.cons_append]
      constructor
      · rintro ⟨rfl, t, rfl⟩
        exact ⟨t, rfl⟩
      · rintro ⟨t, ht⟩
        injection ht with h1 h2
        exact ⟨h1.symm, t, h2⟩

theorem containsSub_iff (n h : List Char) :
    containsSub n h = true ↔ ∃ pre post, h = pre ++ n ++ post := by
  induction h with
  | nil =>
    simp only [containsSub, List.isEmpty_iff]
    constructor
    · rintro rfl
      exact ⟨[], [], rfl⟩
    · rintro ⟨pre, post, hp⟩
      rcases List.append_eq_nil.mp (List.append_eq_nil.mp hp.symm).1 with ⟨-, h2⟩
      exact h2
  | cons c rest ih =>
    simp only [containsSub, Bool.or_eq_true, startsWith_iff, ih]
    constructor
    · rintro (⟨t, ht⟩ | ⟨pre, post, hp⟩)
      · exact ⟨[], t, by simpa using ht⟩
      · exact ⟨c :: pre, post, by simp [hp]⟩
    · rintro ⟨pre, post, hp⟩
      cases pre with
      | nil =>
        exact Or.inl ⟨post, by simpa using hp⟩
      | cons c' pre' =>
        simp only [List.cons_append, List.append_assoc] at hp
        injection hp with h1 h2
        exact Or.inr ⟨pre', post, by simp [h2]⟩

/-- C8: `transform_name` returns the fixed two-name set exactly when the
lowercased marker "ganesh" occurs as a substring of the lowercased raw
name; otherwise it returns the singleton of the title-cased raw name; and
the mixed-case "VIJAY ganesh" normalises to the same set as the canonical
"Vijay Ganesh". -/
theorem C8_transform_name_marker (name : String) :
    (transform_name name = {VIJAY_NAME, "David L. Dill"} ↔
      ∃ pre post, (lowerStr name).data = pre ++ "ganesh".data ++ post)
    ∧ ((¬ ∃ pre post, (lowerStr name).data = pre ++ "ganesh".data ++ post) →
        transform_name name = {titleStr name})
    ∧ transform_name "VIJAY ganesh" = transform_name "Vijay Ganesh" := by
  have hmark : (lowerStr "Ganesh").data = "ganesh".data := by decide
  have hiff : containsSub (lowerStr "Ganesh").data (lowerStr name).data = true ↔
      ∃ pre post, (lowerStr name).data = pre ++ "ganesh".data ++ post := by
    rw [hmark]
    exact containsSub_iff _ _
  refine ⟨?_, ?_, by decide⟩
  · constructor
    · intro heq
      by_cases hc : containsSub (lowerStr "Ganesh").data (lowerStr name).data = true
      · exact hiff.mp hc
      · exfalso
        rw [transform_name, if_neg hc] at heq
        have h1 : ({titleStr name} : Finset String).card = 1 :=
          Finset.card_singleton _
        have h2 : ({VIJAY_NAME, "David L. Dill"} : Finset String).card = 2 := by
          decide
        rw [heq, h2] at h1
        exact absurd h1 (by decide)
    · intro hocc
      rw [transform_name, if_pos (hiff.mpr hocc)]
  · intro hnocc
    have hc : ¬ containsSub (lowerStr "Ganesh").data (lowerStr name).data = true :=
      fun hx => hnocc (hiff.mp hx)
    rw [transform_name, if_neg hc]

/-- Witness for C8 at the concrete inputs "alice" (no marker) and
"VIJAY ganesh" (marker in mixed case). -/
theorem C8_transform_name_marker_witness :
    transform_name "alice" = {titleStr "alice"} ∧
      transform_name "VIJAY ganesh" = transform_name "Vijay Ganesh" :=
  ⟨(C8_transform_name_marker "alice").2.1
      (fun hocc => by
        have hc : containsSub "ganesh".data (lowerStr "alice").data = true :=
          (containsSub_iff _ _).mpr hocc
        exact absurd hc (by decide)),
    (C8_transform_name_marker "alice").2.2⟩

example : transform_name "alice" = {"Alice"} := by decide
example : transform_name "VIJAY ganesh" = {"Vijay Ganesh", "David L. Dill"} := by decide
example : classify {"Alice"} 3 5 = "Inherited" := by decide

/-! ### Inversion lemmas for one processed change record -/

theorem processAM_true_ne_added_error (a : String) (t : Int) (s : EngineState)
    (d : Delta) (hst : d.status ≠ GitDelta.added) (s' : EngineState) :
    processAM true a t s d ≠ .ok s' := by
  rw [processAM]
  by_cases ho : d.old = d.new
  · rw [if_pos ho, if_pos ⟨rfl, hst⟩]
    intro h
    cases h
  · rw [if_neg ho]
    intro h
    cases h

theorem processDelta_ok_added (first : Bool) (a : String) (t : Int)
    (s : EngineState) (d : Delta) (s' : EngineState)
    (hst : d.status = GitDelta.added) :
    processDelta first a t s d = .ok s' ↔
      d.old = d.new ∧ getk s.owners d.new = none ∧
      s' = { owners := setk s.owners d.new (resolved_contributor first a)
             created_on := setk s.created_on d.new t
             all_contributors :=
               s.all_contributors ∪ resolved_contributor first a
             last_vijay_date :=
               if VIJAY_NAME ∈ resolved_contributor first a then some t
               else s.last_vijay_date } := by
  rw [processDelta, if_pos (Or.inr (Or.inl hst)), processAM]
  by_cases ho : d.old = d.new
  · rw [if_pos ho]
    have hno : ¬(first = true ∧ d.status ≠ GitDelta.added) := by
      simp [hst]
    rw [if_neg hno]
    simp only [hst, if_pos rfl]
    cases hg : getk s.owners d.new with
    | some v => simp [ho]
    | none => simp [ho, eq_comm]
  · rw [if_neg ho]
    simp [ho]

theorem processDelta_ok_modified (first : Bool) (a : String) (t : Int)
    (s : EngineState) (d : Delta) (s' : EngineState)
    (hst : d.status = GitDelta.modified) :
    processDelta first a t s d = .ok s' ↔
      first = false ∧ d.old = d.new ∧
      ∃ cur, getk s.owners d.new = some cur ∧
        s' = { owners := setk s.owners d.new (cur ∪ transform_name a)
               created_on := s.created_on
               all_contributors := s.all_contributors ∪ transform_name a
               last_vijay_date :=
                 if VIJAY_NAME ∈ transform_name a then some t
                 else s.last_vijay_date } := by
  cases first with
  | true =>
    rw [processDelta, if_pos (Or.inl rfl)]
    constructor
    · intro h
      exact absurd h (processAM_true_ne_added_error a t s d (by simp [hst]) s')
    · rintro ⟨h, -⟩
      cases h
  | false =>
    rw [processDelta, if_pos (Or.inr (Or.inr hst)), processAM]
    by_cases ho : d.old = d.new
    · rw [if_pos ho]
      have hno : ¬((false : Bool) = true ∧ d.status ≠ GitDelta.added) := by
        simp
      rw [if_neg hno]
      have hne : ¬(d.status = GitDelta.added) := by simp [hst]
      rw [if_neg hne]
      cases hg : getk s.owners d.new with
      | none => simp [ho]
      | some cur =>
        simp only [resolved_contributor, Bool.false_eq_true, if_false]
        simp [ho, eq_comm]
    · rw [if_neg ho]
      simp [ho]

theorem processDelta_ok_renamed (first : Bool) (a : String) (t : Int)
    (s : EngineState) (d : Delta) (s' : EngineState)
    (hst : d.status = GitDelta.renamed) :
    processDelta first a t s d = .ok s' ↔
      first = false ∧ getk s.owners d.new = none ∧
      ∃ ov ct, getk s.owners d.old = some ov ∧
        getk s.created_on d.old = some ct ∧
        s' = { owners := delk (setk s.owners d.new ov) d.old
               created_on := delk (setk s.created_on d.new ct) d.old
               all_contributors := s.all_contributors
               last_vijay_date := s.last_vijay_date } := by
  cases first with
  | true =>
    rw [processDelta, if_pos (Or.inl rfl)]
    constructor
    · intro h
      exact absurd h (processAM_true_ne_added_error a t s d (by simp [hst]) s')
    · rintro ⟨h, -⟩
      cases h
  | false =>
    have hcond : ¬((false : Bool) = true ∨ d.status = GitDelta.added ∨
        d.status = GitDelta.modified) := by
      simp [hst]
    rw [processDelta, if_neg hcond, if_pos (Or.inl hst), processRD]
    simp only [hst, if_pos rfl]
    cases hgn : getk s.owners d.new with
    | some v => simp
    | none =>
      cases hgo : getk s.owners d.old with
      | none => simp
      | some ov =>
        cases hgc : getk s.created_on d.old with
        | none => simp
        | some ct =>
          simp only []
          have hdo : getk (setk s.owners d.new ov) d.old = some ov := by
            by_cases hoe : d.old = d.new
            · rw [hoe, getk_setk_self]
            · rw [getk_setk_ne _ _ _ _ hoe, hgo]
          have hdc : getk (setk s.created_on d.new ct) d.old = some ct := by
            by_cases hoe : d.old = d.new
            · rw [hoe, getk_setk_self]
            · rw [getk_setk_ne _ _ _ _ hoe, hgc]
          simp [hdo, hdc, eq_comm]

theorem processDelta_ok_deleted (first : Bool) (a : String) (t : Int)
    (s : EngineState) (d : Delta) (s' : EngineState)
    (hst : d.status = GitDelta.deleted) :
    processDelta first a t s d = .ok s' ↔
      first = false ∧
      ∃ ov ct, getk s.owners d.old = some ov ∧
        getk s.created_on d.old = some ct ∧
        s' = { owners := delk s.owners d.old
               created_on := delk s.created_on d.old
               all_contributors := s.all_contributors
               last_vijay_date := s.last_vijay_date } := by
  cases first with
  | true =>
    rw [processDelta, if_pos (Or.inl rfl)]
    constructor
    · intro h
      exact absurd h (processAM_true_ne_added_error a t s d (by simp [hst]) s')
    · rintro ⟨h, -⟩
      cases h
  | false =>
    have hcond : ¬((false : Bool) = true ∨ d.status = GitDelta.added ∨
        d.status = GitDelta.modified) := by
      simp [hst]
    rw [processDelta, if_neg hcond, if_pos (Or.inr hst), processRD]
    have hnr : ¬(d.status = GitDelta.renamed) := by simp [hst]
    rw [if_neg hnr]
    simp only []
    cases hgo : getk s.owners d.old with
    | none => simp
    | some ov =>
      cases hgc : getk s.created_on d.old with
      | none => simp
      | some ct => simp [eq_comm]

theorem processDelta_false_unhandled (a : String) (t : Int)
    (s : EngineState) (d : Delta)
    (hst : d.status ≠ GitDelta.added ∧ d.status ≠ GitDelta.modified ∧
      d.status ≠ GitDelta.renamed ∧ d.status ≠ GitDelta.deleted) :
    processDelta false a t s d = .error (.unhandled (get_git_type d.status)) := by
  obtain ⟨h1, h2, h3, h4⟩ := hst
  have hcond : ¬((false : Bool) = true ∨ d.status = GitDelta.added ∨
      d.status = GitDelta.modified) := by
    simp [h1, h2]
  have hcond2 : ¬(d.status = GitDelta.renamed ∨ d.status = GitDelta.deleted) := by
    simp [h3, h4]
  rw [processDelta, if_neg hcond, if_neg hcond2]

/-! ### C1: the classifier -/

/-- C1: for every live path of a final engine state whose
`last_vijay_date` is set, `classify` yields exactly one of the four labels,
decided in precedence order: `Complete` when the owner set equals the
distinguished identity set, else `Partial` when it intersects it, else
`Inherited` when the creation time is strictly earlier than the last
distinguished commit time, else `None`. -/
theorem C1_classify_precedence (s : EngineState) (p : String)
    (o : Finset String) (c v : Int)
    (_ho : getk s.owners p = some o) (_hc : getk s.created_on p = some c)
    (_hv : s.last_vijay_date = some v) :
    (classify o c v = "Complete" ↔ o = vijay_set)
    ∧ (classify o c v = "Partial" ↔
        o ≠ vijay_set ∧ (vijay_set ∩ o).Nonempty)
    ∧ (classify o c v = "Inherited" ↔
        o ≠ vijay_set ∧ ¬(vijay_set ∩ o).Nonempty ∧ c < v)
    ∧ (classify o c v = "None" ↔
        o ≠ vijay_set ∧ ¬(vijay_set ∩ o).Nonempty ∧ ¬(c < v)) := by
  unfold classify
  by_cases h1 : o = vijay_set
  · rw [if_pos h1]
    exact ⟨⟨fun _ => h1, fun _ => rfl⟩,
      ⟨fun h => absurd h (by decide), fun h => absurd h1 h.1⟩,
      ⟨fun h => absurd h (by decide), fun h => absurd h1 h.1⟩,
      ⟨fun h => absurd h (by decide), fun h => absurd h1 h.1⟩⟩
  · rw [if_neg h1]
    by_cases h2 : (vijay_set ∩ o).Nonempty
    · rw [if_pos h2]
      exact ⟨⟨fun h => absurd h (by decide), fun h => absurd h h1⟩,
        ⟨fun _ => ⟨h1, h2⟩, fun _ => rfl⟩,
        ⟨fun h => absurd h (by decide), fun h => absurd h2 h.2.1⟩,
        ⟨fun h => absurd h (by decide), fun h => absurd h2 h.2.1⟩⟩
    · rw [if_neg h2]
      by_cases h3 : c < v
      · rw [if_pos h3]
        exact ⟨⟨fun h => absurd h (by decide), fun h => absurd h h1⟩,
          ⟨fun h => absurd h (by decide), fun h => absurd h.2 h2⟩,
          ⟨fun _ => ⟨h1, h2, h3⟩, fun _ => rfl⟩,
          ⟨fun h => absurd h (by decide), fun h => absurd h3 h.2.2⟩⟩
      · rw [if_neg h3]
        exact ⟨⟨fun h => absurd h (by decide), fun h => absurd h h1⟩,
          ⟨fun h => absurd h (by decide), fun h => absurd h.2 h2⟩,
          ⟨fun h => absurd h (by decide), fun h => absurd h.2.2 h3⟩,
          ⟨fun _ => ⟨h1, h2, h3⟩, fun _ => rfl⟩⟩

/-- Witness for C1 on a concrete final state: a path owned only by Alice,
created at time 3, with the last distinguished commit at time 5,
classifies `Inherited`. -/
theorem C1_classify_precedence_witness :
    classify {"Alice"} 3 5 = "Inherited" :=
  ((C1_classify_precedence
      ⟨[("a.txt", {"Alice"})], [("a.txt", 3)], {"Alice"}, some 5⟩
      "a.txt" {"Alice"} 3 5 (by decide) (by decide) rfl).2.2.1).mpr
    ⟨by decide, by decide, by decide⟩

/-! ### C5: the first-commit bootstrap rule -/

/-- C5: on the very first commit every successfully processed change is of
kind `Added`, the recorded identity is the distinguished identity set
(independent of the commit author), and any first-commit change of a
different kind aborts. -/
theorem C5_first_commit_bootstrap (a a' : String) (t : Int)
    (s : EngineState) (d : Delta) :
    (∀ s', processDelta true a t s d = .ok s' →
      d.status = GitDelta.added ∧
      getk s'.owners d.new = some (transform_name VIJAY_NAME) ∧
      s'.all_contributors = s.all_contributors ∪ transform_name VIJAY_NAME)
    ∧ processDelta true a t s d = processDelta true a' t s d
    ∧ (d.status ≠ GitDelta.added → ∀ s', processDelta true a t s d ≠ .ok s') := by
  refine ⟨?_, ?_, ?_⟩
  · intro s' hok
    by_cases hst : d.status = GitDelta.added
    · obtain ⟨ho, hg, rfl⟩ := (processDelta_ok_added true a t s d s' hst).mp hok
      have hres : resolved_contributor true a = transform_name VIJAY_NAME := by
        simp [resolved_contributor]
      refine ⟨hst, ?_, by rw [hres]⟩
      simp only [hres]
      exact getk_setk_self _ _ _
    · exfalso
      rw [processDelta, if_pos (Or.inl rfl)] at hok
      exact processAM_true_ne_added_error a t s d hst s' hok
  · simp [processDelta, processAM, resolved_contributor]
  · intro hne s'
    rw [processDelta, if_pos (Or.inl rfl)]
    exact processAM_true_ne_added_error a t s d hne s'

/-- Witness for C5: the first-commit change adding `a.txt` under author
"alice" records the distinguished identity, and a first-commit `Deleted`
change can never succeed. -/
theorem C5_first_commit_bootstrap_witness :
    (GitDelta.added = GitDelta.added ∧
      getk (⟨[("a.txt", {"Vijay Ganesh", "David L. Dill"})], [("a.txt", 7)],
        {"Vijay Ganesh", "David L. Dill"}, some 7⟩ : EngineState).owners
          "a.txt" = some (transform_name VIJAY_NAME) ∧
      (⟨[("a.txt", {"Vijay Ganesh", "David L. Dill"})], [("a.txt", 7)],
        {"Vijay Ganesh", "David L. Dill"}, some 7⟩ : EngineState).all_contributors =
        initState.all_contributors ∪ transform_name VIJAY_NAME) ∧
    processDelta true "alice" 7 initState ⟨"b.txt", "b.txt", GitDelta.deleted⟩ ≠
      .ok initState :=
  ⟨(C5_first_commit_bootstrap "alice" "bob" 7 initState
      ⟨"a.txt", "a.txt", GitDelta.added⟩).1
      ⟨[("a.txt", {"Vijay Ganesh", "David L. Dill"})], [("a.txt", 7)],
        {"Vijay Ganesh", "David L. Dill"}, some 7⟩ (by decide),
    (C5_first_commit_bootstrap "alice" "bob" 7 initState
      ⟨"b.txt", "b.txt", GitDelta.deleted⟩).2.2 (by decide) initState⟩

/-! ### C6: invariant violations abort the walk -/

/-- Helper: a walk result that is never `ok` is an error. -/
theorem not_ok_error (r : Except WalkError EngineState)
    (h : ∀ s', r ≠ .ok s') : ∃ e, r = .error e := by
  cases r with
  | ok s' => exact absurd rfl (h s')
  | error e => exact ⟨e, rfl⟩

/-- C6: an `Added` change on a live path, a `Modified` change on a
non-live path, a `Renamed` change whose new path is live or whose old path
is not live, and a `Deleted` change on a non-live path all make the walk
abort with an error. -/
theorem C6_invariant_violations_abort (first : Bool) (a : String) (t : Int)
    (s : EngineState) (d : Delta)
    (h : (d.status = GitDelta.added ∧ getk s.owners d.new ≠ none) ∨
         (d.status = GitDelta.modified ∧ getk s.owners d.new = none) ∨
         (d.status = GitDelta.renamed ∧
           (getk s.owners d.new ≠ none ∨ getk s.owners d.old = none)) ∨
         (d.status = GitDelta.deleted ∧ getk s.owners d.old = none)) :
    ∃ e, processDelta first a t s d = .error e := by
  apply not_ok_error
  intro s' hok
  rcases h with ⟨hst, hlive⟩ | ⟨hst, hdead⟩ | ⟨hst, hbad⟩ | ⟨hst, hdead⟩
  · obtain ⟨-, hg, -⟩ := (processDelta_ok_added first a t s d s' hst).mp hok
    exact hlive hg
  · obtain ⟨-, -, cur, hg, -⟩ :=
      (processDelta_ok_modified first a t s d s' hst).mp hok
    rw [hdead] at hg
    cases hg
  · obtain ⟨-, hgn, ov, ct, hgo, -, -⟩ :=
      (processDelta_ok_renamed first a t s d s' hst).mp hok
    rcases hbad with hb | hb
    · exact hb hgn
    · rw [hb] at hgo
      cases hgo
  · obtain ⟨-, ov, ct, hgo, -, -⟩ :=
      (processDelta_ok_deleted first a t s d s' hst).mp hok
    rw [hdead] at hgo
    cases hgo

/-- Witness for C6: modifying a path that is not live in the empty initial
state cannot yield any successor state. -/
theorem C6_invariant_violations_abort_witness :
    processDelta false "alice" 7 initState
      ⟨"a.txt", "a.txt", GitDelta.modified⟩ ≠ .ok initState := by
  obtain ⟨e, he⟩ := C6_invariant_violations_abort false "alice" 7 initState
    ⟨"a.txt", "a.txt", GitDelta.modified⟩ (Or.inr (Or.inl ⟨rfl, rfl⟩))
  rw [he]
  intro hc
  cases hc

/-! ### C7: unhandled change kinds fail loudly -/

/-- C7: a change record of any kind other than `Added`, `Modified`,
`Renamed` or `Deleted` makes the walk abort: after the first commit with
the `RuntimeError` naming the offending kind, and on the first commit it
can never succeed either. -/
theorem C7_unhandled_kind_fatal (a : String) (t : Int) (s : EngineState)
    (d : Delta)
    (h : d.status ≠ GitDelta.added ∧ d.status ≠ GitDelta.modified ∧
      d.status ≠ GitDelta.renamed ∧ d.status ≠ GitDelta.deleted) :
    processDelta false a t s d =
      .error (.unhandled (get_git_type d.status)) ∧
    (∀ a' t' s₀ s', processDelta true a' t' s₀ d ≠ .ok s') := by
  refine ⟨processDelta_false_unhandled a t s d h, ?_⟩
  intro a' t' s₀ s'
  rw [processDelta, if_pos (Or.inl rfl)]
  exact processAM_true_ne_added_error a' t' s₀ d h.1 s'

/-- Witness for C7: a `Copied` change aborts with the error naming
`GIT_DELTA_COPIED`. -/
theorem C7_unhandled_kind_fatal_witness :
    processDelta false "alice" 7 initState ⟨"x", "y", GitDelta.copied⟩ =
      .error (.unhandled (get_git_type GitDelta.copied)) :=
  (C7_unhandled_kind_fatal "alice" 7 initState ⟨"x", "y", GitDelta.copied⟩
    (by decide)).1

/-! ### C2: renames preserve ownership and creation time -/

/-- The path under which a tracked path continues to live after one change
record: a rename whose old path is the tracked path moves it to the new
path, every other change leaves it in place. -/
def trackD (p : String) (d : Delta) : String :=
  if d.status = GitDelta.renamed ∧ d.old = p then d.new else p

/-- The path under which a tracked path lives after a sequence of change
records. -/
def trackRecs (p : String) : List ChangeRec → String
  | [] => p
  | r :: rest => trackRecs (trackD p r.delta) rest

/-- No change record of the sequence deletes the tracked path. -/
def noKillB (p : String) : List ChangeRec → Bool
  | [] => true
  | r :: rest =>
    !(decide (r.delta.status = GitDelta.deleted ∧ r.delta.old = p)) &&
      noKillB (trackD p r.delta) rest

/-- One successful change record keeps the tracked path live and keeps its
creation time, provided it does not delete the tracked path. -/
theorem chain_step (a : String) (t : Int) (s s' : EngineState) (d : Delta)
    (p : String) (hok : processDelta false a t s d = .ok s')
    (hlive : getk s.owners p ≠ none)
    (hnk : ¬(d.status = GitDelta.deleted ∧ d.old = p)) :
    getk s'.owners (trackD p d) ≠ none ∧
    getk s'.created_on (trackD p d) = getk s.created_on p := by
  cases hst : d.status with
  | added =>
    obtain ⟨ho, hg, rfl⟩ := (processDelta_ok_added false a t s d s' hst).mp hok
    have hne : d.new ≠ p := fun h => hlive (h ▸ hg)
    have htr : trackD p d = p := by simp [trackD, hst]
    rw [htr]
    constructor
    · rw [getk_setk_ne _ _ _ _ (Ne.symm hne)]
      exact hlive
    · rw [getk_setk_ne _ _ _ _ (Ne.symm hne)]
  | modified =>
    obtain ⟨-, ho, cur, hg, rfl⟩ :=
      (processDelta_ok_modified false a t s d s' hst).mp hok
    have htr : trackD p d = p := by simp [trackD, hst]
    rw [htr]
    constructor
    · by_cases hne : d.new = p
      · rw [← hne, getk_setk_self]
        intro h
        cases h
      · rw [getk_setk_ne _ _ _ _ (Ne.symm hne)]
        exact hlive
    · rfl
  | renamed =>
    obtain ⟨-, hgn, ov, ct, hgo, hgc, rfl⟩ :=
      (processDelta_ok_renamed false a t s d s' hst).mp hok
    have hone : d.old ≠ d.new := by
      intro h
      rw [h, hgn] at hgo
      cases hgo
    by_cases hop : d.old = p
    · have htr : trackD p d = d.new := by simp [trackD, hst, hop]
      rw [htr]
      constructor
      · rw [getk_delk_ne _ _ _ (Ne.symm hone), getk_setk_self]
        intro h
        cases h
      · rw [getk_delk_ne _ _ _ (Ne.symm hone), getk_setk_self, ← hop, hgc]
    · have hpn : p ≠ d.new := by
        intro h
        exact hlive (h ▸ hgn)
      have htr : trackD p d = p := by simp [trackD, hst, hop]
      rw [htr]
      have hpo : p ≠ d.old := fun h => hop h.symm
      constructor
      · rw [getk_delk_ne _ _ _ hpo, getk_setk_ne _ _ _ _ hpn]
        exact hlive
      · rw [getk_delk_ne _ _ _ hpo, getk_setk_ne _ _ _ _ hpn]
  | deleted =>
    obtain ⟨-, ov, ct, hgo, hgc, rfl⟩ :=
      (processDelta_ok_deleted false a t s d s' hst).mp hok
    have hpo : p ≠ d.old := by
      intro h
      exact hnk ⟨hst, h.symm⟩
    have htr : trackD p d = p := by simp [trackD, hst]
    rw [htr]
    constructor
    · rw [getk_delk_ne _ _ _ hpo]
      exact hlive
    · rw [getk_delk_ne _ _ _ hpo]
  | conflicted =>
    rw [processDelta_false_unhandled a t s d (by simp [hst])] at hok
    cases hok
  | copied =>
    rw [processDelta_false_unhandled a t s d (by simp [hst])] at hok
    cases hok
  | ignored =>
    rw [processDelta_false_unhandled a t s d (by simp [hst])] at hok
    cases hok
  | typechange =>
    rw [processDelta_false_unhandled a t s d (by simp [hst])] at hok
    cases hok
  | unmodified =>
    rw [processDelta_false_unhandled a t s d (by simp [hst])] at hok
    cases hok
  | unreadable =>
    rw [processDelta_false_unhandled a t s d (by simp [hst])] at hok
    cases hok
  | untracked =>
    rw [processDelta_false_unhandled a t s d (by simp [hst])] at hok
    cases hok

/-- The tracked path stays live and keeps its creation time along any
successfully processed sequence of change records that never deletes it. -/
theorem chain_createdOn (rs : List ChangeRec) (s s' : EngineState)
    (p : String) (hok : runRecs s rs = .ok s')
    (hlive : getk s.owners p ≠ none) (hnk : noKillB p rs = true) :
    getk s'.owners (trackRecs p rs) ≠ none ∧
    getk s'.created_on (trackRecs p rs) = getk s.created_on p := by
  induction rs generalizing s p with
  | nil =>
    rw [runRecs] at hok
    injection hok with h
    subst h
    exact ⟨hlive, rfl⟩
  | cons r rest ih =>
    rw [runRecs] at hok
    cases hpd : processDelta false r.author r.time s r.delta with
    | error e =>
      rw [hpd] at hok
      cases hok
    | ok s1 =>
      rw [hpd] at hok
      rw [noKillB, Bool.and_eq_true, Bool.not_eq_true', decide_eq_false_iff_not]
        at hnk
      obtain ⟨h1, h2⟩ := hnk
      obtain ⟨hlive1, hcreate1⟩ := chain_step r.author r.time s s1 r.delta p
        hpd hlive h1
      obtain ⟨hlive2, hcreate2⟩ := ih s1 (trackD p r.delta) hok hlive1 h2
      exact ⟨hlive2, by rw [trackRecs]; rw [hcreate2, hcreate1]⟩

/-- C2: a successfully processed `Renamed` change gives the new path
exactly the owner set and creation time the old path had, removes the old
path from both maps and leaves `all_contributors` and `last_vijay_date`
unchanged; consequently the creation time of a path is carried unchanged
through any chain of renames and modifications that never deletes the
tracked path. -/
theorem C2_rename_preserves_creation :
    (∀ (a : String) (t : Int) (s s' : EngineState) (d : Delta),
      d.status = GitDelta.renamed →
      processDelta false a t s d = .ok s' →
      getk s'.owners d.new = getk s.owners d.old ∧
      getk s'.created_on d.new = getk s.created_on d.old ∧
      getk s'.owners d.old = none ∧ getk s'.created_on d.old = none ∧
      s'.all_contributors = s.all_contributors ∧
      s'.last_vijay_date = s.last_vijay_date)
    ∧ (∀ (rs : List ChangeRec) (s s' : EngineState) (p : String),
        runRecs s rs = .ok s' → getk s.owners p ≠ none →
        noKillB p rs = true →
        getk s'.created_on (trackRecs p rs) = getk s.created_on p) := by
  constructor
  · intro a t s s' d hst hok
    obtain ⟨-, hgn, ov, ct, hgo, hgc, rfl⟩ :=
      (processDelta_ok_renamed false a t s d s' hst).mp hok
    have hone : d.old ≠ d.new := by
      intro h
      rw [h, hgn] at hgo
      cases hgo
    refine ⟨?_, ?_, ?_, ?_, rfl, rfl⟩
    · rw [getk_delk_ne _ _ _ (Ne.symm hone), getk_setk_self, hgo]
    · rw [getk_delk_ne _ _ _ (Ne.symm hone), getk_setk_self, hgc]
    · exact getk_delk_self _ _
    · exact getk_delk_self _ _
  · intro rs s s' p hok hlive hnk
    exact (chain_createdOn rs s s' p hok hlive hnk).2

/-- Witness for C2: renaming `c.txt` (created at time 3) to `d.txt` and
then letting "bob" modify `d.txt` keeps the creation time 3. -/
theorem C2_rename_preserves_creation_witness :
    (getk (⟨[("d.txt", {"X"})], [("d.txt", 3)], {"X"}, none⟩ :
        EngineState).owners "d.txt" =
      getk (⟨[("c.txt", {"X"})], [("c.txt", 3)], {"X"}, none⟩ :
        EngineState).owners "c.txt" ∧
      getk (⟨[("d.txt", {"X"})], [("d.txt", 3)], {"X"}, none⟩ :
        EngineState).created_on "d.txt" =
      getk (⟨[("c.txt", {"X"})], [("c.txt", 3)], {"X"}, none⟩ :
        EngineState).created_on "c.txt" ∧
      getk (⟨[("d.txt", {"X"})], [("d.txt", 3)], {"X"}, none⟩ :
        EngineState).owners "c.txt" = none ∧
      getk (⟨[("d.txt", {"X"})], [("d.txt", 3)], {"X"}, none⟩ :
        EngineState).created_on "c.txt" = none ∧
      (⟨[("d.txt", {"X"})], [("d.txt", 3)], {"X"}, none⟩ :
        EngineState).all_contributors =
        (⟨[("c.txt", {"X"})], [("c.txt", 3)], {"X"}, none⟩ :
          EngineState).all_contributors ∧
      (⟨[("d.txt", {"X"})], [("d.txt", 3)], {"X"}, none⟩ :
        EngineState).last_vijay_date =
        (⟨[("c.txt", {"X"})], [("c.txt", 3)], {"X"}, none⟩ :
          EngineState).last_vijay_date) ∧
    getk (⟨[("d.txt", {"X", "Bob"})], [("d.txt", 3)], {"X", "Bob"}, none⟩ :
        EngineState).created_on
      (trackRecs "c.txt"
        [⟨"bob", 5, ⟨"c.txt", "d.txt", GitDelta.renamed⟩⟩,
          ⟨"bob", 9, ⟨"d.txt", "d.txt", GitDelta.modified⟩⟩]) =
    getk (⟨[("c.txt", {"X"})], [("c.txt", 3)], {"X"}, none⟩ :
        EngineState).created_on "c.txt" :=
  ⟨C2_rename_preserves_creation.1 "bob" 5
      ⟨[("c.txt", {"X"})], [("c.txt", 3)], {"X"}, none⟩
      ⟨[("d.txt", {"X"})], [("d.txt", 3)], {"X"}, none⟩
      ⟨"c.txt", "d.txt", GitDelta.renamed⟩ rfl (by decide),
    C2_rename_preserves_creation.2
      [⟨"bob", 5, ⟨"c.txt", "d.txt", GitDelta.renamed⟩⟩,
        ⟨"bob", 9, ⟨"d.txt", "d.txt", GitDelta.modified⟩⟩]
      ⟨[("c.txt", {"X"})], [("c.txt", 3)], {"X"}, none⟩
      ⟨[("d.txt", {"X", "Bob"})], [("d.txt", 3)], {"X", "Bob"}, none⟩
      "c.txt" (by decide) (by decide) (by decide)⟩

/-! ### C3: the two maps stay in lock-step with unique keys -/

/-- The data invariant of the engine state: `owners` and `created_on` hold
exactly the same keys, and each key occurs at most once in each map. -/
def engineInv (s : EngineState) : Prop :=
  keysOf s.owners = keysOf s.created_on ∧
  (keysOf s.owners).Nodup ∧ (keysOf s.created_on).Nodup

instance (s : EngineState) : Decidable (engineInv s) :=
  inferInstanceAs (Decidable (keysOf s.owners = keysOf s.created_on ∧
    (keysOf s.owners).Nodup ∧ (keysOf s.created_on).Nodup))

theorem nodup_setk {α : Type} (m : List (String × α)) (k : String) (v : α)
    (h : (keysOf m).Nodup) : (keysOf (setk m k v)).Nodup := by
  rw [keysOf_setk]
  by_cases hm : k ∈ keysOf m
  · rw [if_pos hm]
    exact h
  · rw [if_neg hm]
    refine List.Nodup.append h (List.nodup_singleton k) ?_
    simp only [List.Disjoint, List.mem_singleton]
    intro x hx hxk
    exact hm (hxk ▸ hx)

theorem nodup_delk {α : Type} (m : List (String × α)) (k : String)
    (h : (keysOf m).Nodup) : (keysOf (delk m k)).Nodup := by
  rw [keysOf_delk]
  exact h.filter _

theorem engineInv_step (first : Bool) (a : String) (t : Int)
    (s : EngineState) (d : Delta) (s' : EngineState)
    (hinv : engineInv s) (hok : processDelta first a t s d = .ok s') :
    engineInv s' := by
  obtain ⟨hk, hn1, hn2⟩ := hinv
  cases hst : d.status with
  | added =>
    obtain ⟨-, hg, rfl⟩ := (processDelta_ok_added first a t s d s' hst).mp hok
    refine ⟨?_, nodup_setk _ _ _ hn1, nodup_setk _ _ _ hn2⟩
    rw [keysOf_setk, keysOf_setk, hk]
  | modified =>
    obtain ⟨-, -, cur, hg, rfl⟩ :=
      (processDelta_ok_modified first a t s d s' hst).mp hok
    have hmem : d.new ∈ keysOf s.owners := getk_mem_keysOf _ _ _ hg
    refine ⟨?_, nodup_setk _ _ _ hn1, hn2⟩
    rw [keysOf_setk, if_pos hmem, hk]
  | renamed =>
    obtain ⟨-, hgn, ov, ct, hgo, hgc, rfl⟩ :=
      (processDelta_ok_renamed first a t s d s' hst).mp hok
    refine ⟨?_, nodup_delk _ _ (nodup_setk _ _ _ hn1),
      nodup_delk _ _ (nodup_setk _ _ _ hn2)⟩
    rw [keysOf_delk, keysOf_delk, keysOf_setk, keysOf_setk, hk]
  | deleted =>
    obtain ⟨-, ov, ct, hgo, hgc, rfl⟩ :=
      (processDelta_ok_deleted first a t s d s' hst).mp hok
    refine ⟨?_, nodup_delk _ _ hn1, nodup_delk _ _ hn2⟩
    rw [keysOf_delk, keysOf_delk, hk]
  | conflicted =>
    cases first with
    | true =>
      rw [processDelta, if_pos (Or.inl rfl)] at hok
      exact absurd hok (processAM_true_ne_added_error a t s d (by simp [hst]) s')
    | false =>
      rw [processDelta_false_unhandled a t s d (by simp [hst])] at hok
      cases hok
  | copied =>
    cases first with
    | true =>
      rw [processDelta, if_pos (Or.inl rfl)] at hok
      exact absurd hok (processAM_true_ne_added_error a t s d (by simp [hst]) s')
    | false =>
      rw [processDelta_false_unhandled a t s d (by simp [hst])] at hok
      cases hok
  | ignored =>
    cases first with
    | true =>
      rw [processDelta, if_pos (Or.inl rfl)] at hok
      exact absurd hok (processAM_true_ne_added_error a t s d (by simp [hst]) s')
    | false =>
      rw [processDelta_false_unhandled a t s d (by simp [hst])] at hok
      cases hok
  | typechange =>
    cases first with
    | true =>
      rw [processDelta, if_pos (Or.inl rfl)] at hok
      exact absurd hok (processAM_true_ne_added_error a t s d (by simp [hst]) s')
    | false =>
      rw [processDelta_false_unhandled a t s d (by simp [hst])] at hok
      cases hok
  | unmodified =>
    cases first with
    | true =>
      rw [processDelta, if_pos (Or.inl rfl)] at hok
      exact absurd hok (processAM_true_ne_added_error a t s d (by simp [hst]) s')
    | false =>
      rw [processDelta_false_unhandled a t s d (by simp [hst])] at hok
      cases hok
  | unreadable =>
    cases first with
    | true =>
      rw [processDelta, if_pos (Or.inl rfl)] at hok
      exact absurd hok (processAM_true_ne_added_error a t s d (by simp [hst]) s')
    | false =>
      rw [processDelta_false_unhandled a t s d (by simp [hst])] at hok
      cases hok
  | untracked =>
    cases first with
    | true =>
      rw [processDelta, if_pos (Or.inl rfl)] at hok
      exact absurd hok (processAM_true_ne_added_error a t s d (by simp [hst]) s')
    | false =>
      rw [processDelta_false_unhandled a t s d (by simp [hst])] at hok
      cases hok

theorem engineInv_runDeltas (ds : List Delta) (first : Bool) (a : String)
    (t : Int) (s s' : EngineState) (hinv : engineInv s)
    (hok : runDeltas first a t s ds = .ok s') : engineInv s' := by
  induction ds generalizing s with
  | nil =>
    rw [runDeltas] at hok
    injection hok with h
    subst h
    exact hinv
  | cons d rest ih =>
    rw [runDeltas] at hok
    cases hpd : processDelta first a t s d with
    | error e =>
      rw [hpd] at hok
      cases hok
    | ok s1 =>
      rw [hpd] at hok
      exact ih s1 (engineInv_step first a t s d s1 hinv hpd) hok

theorem engineInv_runCommits (cs : List Commit) (s s' : EngineState)
    (hinv : engineInv s) (hok : runCommits s cs = .ok s') : engineInv s' := by
  induction cs generalizing s with
  | nil =>
    rw [runCommits] at hok
    injection hok with h
    subst h
    exact hinv
  | cons c rest ih =>
    rw [runCommits] at hok
    cases hpc : processCommit false s c with
    | error e =>
      rw [hpc] at hok
      cases hok
    | ok s1 =>
      rw [hpc] at hok
      exact ih s1 (engineInv_runDeltas c.deltas false c.author c.time s s1
        hinv hpc) hok

/-- C3: after every successfully processed change record the key set of
`owners` equals the key set of `created_on` and each path has at most one
entry in each map; consequently the invariant holds after every
successfully processed commit history. -/
theorem C3_lockstep_maps :
    (∀ (first : Bool) (a : String) (t : Int) (s : EngineState) (d : Delta)
        (s' : EngineState), engineInv s →
        processDelta first a t s d = .ok s' → engineInv s')
    ∧ (∀ (cs : List Commit) (s' : EngineState),
        processHistory cs = .ok s' → engineInv s') := by
  constructor
  · exact engineInv_step
  · intro cs s' hok
    have hinit : engineInv initState := ⟨rfl, List.nodup_nil, List.nodup_nil⟩
    cases cs with
    | nil =>
      rw [processHistory] at hok
      injection hok with h
      subst h
      exact hinit
    | cons c rest =>
      rw [processHistory] at hok
      cases hpc : processCommit true initState c with
      | error e =>
        rw [hpc] at hok
        cases hok
      | ok s1 =>
        rw [hpc] at hok
        exact engineInv_runCommits rest s1 s' (engineInv_runDeltas c.deltas
          true c.author c.time initState s1 hinit hpc) hok

/-- Witness for C3: a concrete step and a concrete two-commit history both
end in states satisfying the lock-step invariant. -/
theorem C3_lockstep_maps_witness :
    engineInv ⟨[("a", {"X"}), ("b", {"Alice"})], [("a", 2), ("b", 7)],
      {"X", "Alice"}, none⟩ ∧
    engineInv ⟨[("a.txt", {"Vijay Ganesh", "David L. Dill", "Alice"})],
      [("a.txt", 3)], {"Vijay Ganesh", "David L. Dill", "Alice"}, some 3⟩ :=
  ⟨C3_lockstep_maps.1 false "alice" 7
      ⟨[("a", {"X"})], [("a", 2)], {"X"}, none⟩
      ⟨"b", "b", GitDelta.added⟩
      ⟨[("a", {"X"}), ("b", {"Alice"})], [("a", 2), ("b", 7)],
        {"X", "Alice"}, none⟩ (by decide) (by decide),
    C3_lockstep_maps.2
      [⟨"ignored", 3, [⟨"a.txt", "a.txt", GitDelta.added⟩]⟩,
        ⟨"alice", 8, [⟨"a.txt", "a.txt", GitDelta.modified⟩]⟩]
      ⟨[("a.txt", {"Vijay Ganesh", "David L. Dill", "Alice"})],
        [("a.txt", 3)], {"Vijay Ganesh", "David L. Dill", "Alice"}, some 3⟩
      (by decide)⟩

/-! ### C9 and C10: accumulation and the distinguished commit time -/

theorem processDelta_ok_status (first : Bool) (a : String) (t : Int)
    (s : EngineState) (d : Delta) (s' : EngineState)
    (hok : processDelta first a t s d = .ok s') :
    d.status = GitDelta.added ∨ d.status = GitDelta.modified ∨
    d.status = GitDelta.renamed ∨ d.status = GitDelta.deleted := by
  by_contra h
  push_neg at h
  obtain ⟨h1, h2, h3, h4⟩ := h
  cases first with
  | true =>
    rw [processDelta, if_pos (Or.inl rfl)] at hok
    exact processAM_true_ne_added_error a t s d h1 s' hok
  | false =>
    rw [processDelta_false_unhandled a t s d ⟨h1, h2, h3, h4⟩] at hok
    cases hok

theorem step_all_mono (first : Bool) (a : String) (t : Int)
    (s : EngineState) (d : Delta) (s' : EngineState)
    (hok : processDelta first a t s d = .ok s') :
    s.all_contributors ⊆ s'.all_contributors := by
  rcases processDelta_ok_status first a t s d s' hok with hst | hst | hst | hst
  · obtain ⟨-, -, rfl⟩ := (processDelta_ok_added first a t s d s' hst).mp hok
    exact Finset.subset_union_left
  · obtain ⟨-, -, cur, -, rfl⟩ :=
      (processDelta_ok_modified first a t s d s' hst).mp hok
    exact Finset.subset_union_left
  · obtain ⟨-, -, ov, ct, -, -, rfl⟩ :=
      (processDelta_ok_renamed first a t s d s' hst).mp hok
    exact Finset.Subset.refl _
  · obtain ⟨-, ov, ct, -, -, rfl⟩ :=
      (processDelta_ok_deleted first a t s d s' hst).mp hok
    exact Finset.Subset.refl _

theorem step_lvd_eq (first : Bool) (a : String) (t : Int)
    (s : EngineState) (d : Delta) (s' : EngineState)
    (hok : processDelta first a t s d = .ok s') :
    s'.last_vijay_date =
      if (d.status = GitDelta.added ∨ d.status = GitDelta.modified) ∧
          VIJAY_NAME ∈ resolved_contributor first a
        then some t else s.last_vijay_date := by
  rcases processDelta_ok_status first a t s d s' hok with hst | hst | hst | hst
  · obtain ⟨-, -, rfl⟩ := (processDelta_ok_added first a t s d s' hst).mp hok
    simp [hst]
  · obtain ⟨hf, -, cur, -, rfl⟩ :=
      (processDelta_ok_modified first a t s d s' hst).mp hok
    subst hf
    simp [hst, resolved_contributor]
  · obtain ⟨-, -, ov, ct, -, -, rfl⟩ :=
      (processDelta_ok_renamed first a t s d s' hst).mp hok
    simp [hst]
  · obtain ⟨-, ov, ct, -, -, rfl⟩ :=
      (processDelta_ok_deleted first a t s d s' hst).mp hok
    simp [hst]

theorem step_lvd_ne_none (first : Bool) (a : String) (t : Int)
    (s : EngineState) (d : Delta) (s' : EngineState)
    (hok : processDelta first a t s d = .ok s')
    (h : s.last_vijay_date ≠ none) : s'.last_vijay_date ≠ none := by
  rw [step_lvd_eq first a t s d s' hok]
  by_cases hc : (d.status = GitDelta.added ∨ d.status = GitDelta.modified) ∧
      VIJAY_NAME ∈ resolved_contributor first a
  · rw [if_pos hc]
    intro hcontra
    cases hcontra
  · rw [if_neg hc]
    exact h

theorem runRecs_all_mono (rs : List ChangeRec) (s s' : EngineState)
    (hok : runRecs s rs = .ok s') :
    s.all_contributors ⊆ s'.all_contributors := by
  induction rs generalizing s with
  | nil =>
    rw [runRecs] at hok
    injection hok with h
    subst h
    exact Finset.Subset.refl _
  | cons r rest ih =>
    rw [runRecs] at hok
    cases hpd : processDelta false r.author r.time s r.delta with
    | error e =>
      rw [hpd] at hok
      cases hok
    | ok s1 =>
      rw [hpd] at hok
      exact (step_all_mono false r.author r.time s r.delta s1 hpd).trans
        (ih s1 hok)

/-- C9: one successfully processed change record never removes a
contributor from `all_contributors`; `last_vijay_date` is set to the
commit timestamp exactly when an `Added` or `Modified` change resolves to
an identity containing the distinguished contributor (and is otherwise
untouched); with timestamps processed in non-decreasing order it never
decreases once set; and `all_contributors` grows monotonically over any
successfully processed record sequence. -/
theorem C9_accumulation_monotone :
    (∀ (first : Bool) (a : String) (t : Int) (s : EngineState) (d : Delta)
        (s' : EngineState), processDelta first a t s d = .ok s' →
        s.all_contributors ⊆ s'.all_contributors ∧
        s'.last_vijay_date =
          (if (d.status = GitDelta.added ∨ d.status = GitDelta.modified) ∧
              VIJAY_NAME ∈ resolved_contributor first a
            then some t else s.last_vijay_date) ∧
        (∀ v : Int, s.last_vijay_date = some v → v ≤ t →
          ∃ w, s'.last_vijay_date = some w ∧ v ≤ w))
    ∧ (∀ (rs : List ChangeRec) (s s' : EngineState),
        runRecs s rs = .ok s' →
        s.all_contributors ⊆ s'.all_contributors) := by
  constructor
  · intro first a t s d s' hok
    refine ⟨step_all_mono first a t s d s' hok,
      step_lvd_eq first a t s d s' hok, ?_⟩
    intro v hv hle
    rw [step_lvd_eq first a t s d s' hok]
    by_cases hc : (d.status = GitDelta.added ∨ d.status = GitDelta.modified) ∧
        VIJAY_NAME ∈ resolved_contributor first a
    · rw [if_pos hc]
      exact ⟨t, rfl, hle⟩
    · rw [if_neg hc]
      exact ⟨v, hv, le_refl v⟩
  · exact runRecs_all_mono

/-- Witness for C9: "Vijay Ganesh" modifying a live path advances
`last_vijay_date` to the new timestamp and keeps every earlier
contributor. -/
theorem C9_accumulation_monotone_witness :
    ({"X"} : Finset String) ⊆ {"X", "Vijay Ganesh", "David L. Dill"} ∧
    (some 9 : Option Int) =
      (if (GitDelta.modified = GitDelta.added ∨
            GitDelta.modified = GitDelta.modified) ∧
          VIJAY_NAME ∈ resolved_contributor false "Vijay Ganesh"
        then some 9 else (some 5 : Option Int)) := by
  have h := C9_accumulation_monotone.1 false "Vijay Ganesh" 9
    ⟨[("a", {"X"})], [("a", 2)], {"X"}, some 5⟩
    ⟨"a", "a", GitDelta.modified⟩
    ⟨[("a", {"X", "Vijay Ganesh", "David L. Dill"})], [("a", 2)],
      {"X", "Vijay Ganesh", "David L. Dill"}, some 9⟩ (by decide)
  exact ⟨h.1, h.2.1⟩

theorem first_delta_sets_lvd (a : String) (t : Int) (s : EngineState)
    (d : Delta) (s' : EngineState)
    (hok : processDelta true a t s d = .ok s') :
    s'.last_vijay_date = some t := by
  rcases processDelta_ok_status true a t s d s' hok with hst | hst | hst | hst
  · obtain ⟨-, -, rfl⟩ := (processDelta_ok_added true a t s d s' hst).mp hok
    have hmem : VIJAY_NAME ∈ resolved_contributor true a := by
      rw [resolved_contributor, if_pos rfl]
      decide
    show (if VIJAY_NAME ∈ resolved_contributor true a then some t
      else s.last_vijay_date) = some t
    rw [if_pos hmem]
  · obtain ⟨hf, -⟩ := (processDelta_ok_modified true a t s d s' hst).mp hok
    exact absurd hf (by decide)
  · obtain ⟨hf, -⟩ := (processDelta_ok_renamed true a t s d s' hst).mp hok
    exact absurd hf (by decide)
  · obtain ⟨hf, -⟩ := (processDelta_ok_deleted true a t s d s' hst).mp hok
    exact absurd hf (by decide)

theorem runDeltas_lvd_ne_none (ds : List Delta) (first : Bool) (a : String)
    (t : Int) (s s' : EngineState) (h : s.last_vijay_date ≠ none)
    (hok : runDeltas first a t s ds = .ok s') :
    s'.last_vijay_date ≠ none := by
  induction ds generalizing s with
  | nil =>
    rw [runDeltas] at hok
    injection hok with heq
    subst heq
    exact h
  | cons d rest ih =>
    rw [runDeltas] at hok
    cases hpd : processDelta first a t s d with
    | error e =>
      rw [hpd] at hok
      cases hok
    | ok s1 =>
      rw [hpd] at hok
      exact ih s1 (step_lvd_ne_none first a t s d s1 hpd h) hok

theorem runCommits_lvd_ne_none (cs : List Commit) (s s' : EngineState)
    (h : s.last_vijay_date ≠ none) (hok : runCommits s cs = .ok s') :
    s'.last_vijay_date ≠ none := by
  induction cs generalizing s with
  | nil =>
    rw [runCommits] at hok
    injection hok with heq
    subst heq
    exact h
  | cons c rest ih =>
    rw [runCommits] at hok
    cases hpc : processCommit false s c with
    | error e =>
      rw [hpc] at hok
      cases hok
    | ok s1 =>
      rw [hpc] at hok
      exact ih s1 (runDeltas_lvd_ne_none c.deltas false c.author c.time s s1
        h hpc) hok

/-- C10: a commit history whose first commit has at least one change
record and which the walk processes without error ends with
`last_vijay_date` set: the bootstrap rule attributes every first-commit
change to the distinguished identity and records that commit's
timestamp. -/
theorem C10_lvd_set_after_first (c : Commit) (cs : List Commit)
    (s' : EngineState) (hne : c.deltas ≠ [])
    (hok : processHistory (c :: cs) = .ok s') :
    s'.last_vijay_date ≠ none := by
  rw [processHistory] at hok
  cases hpc : processCommit true initState c with
  | error e =>
    rw [hpc] at hok
    cases hok
  | ok s1 =>
    rw [hpc] at hok
    have hs1 : s1.last_vijay_date ≠ none := by
      rw [processCommit] at hpc
      cases hds : c.deltas with
      | nil => exact absurd hds hne
      | cons d rest =>
        rw [hds, runDeltas] at hpc
        cases hpd : processDelta true c.author c.time initState d with
        | error e =>
          rw [hpd] at hpc
          cases hpc
        | ok s2 =>
          rw [hpd] at hpc
          have h2 : s2.last_vijay_date = some c.time :=
            first_delta_sets_lvd c.author c.time initState d s2 hpd
          exact runDeltas_lvd_ne_none rest true c.author c.time s2 s1
            (by rw [h2]; intro hx; cases hx) hpc
    exact runCommits_lvd_ne_none cs s1 s' hs1 hok

/-- Witness for C10: a one-commit history with one added file ends with
`last_vijay_date` set. -/
theorem C10_lvd_set_after_first_witness :
    (⟨[("a.txt", {"Vijay Ganesh", "David L. Dill"})], [("a.txt", 3)],
      {"Vijay Ganesh", "David L. Dill"}, some 3⟩ :
        EngineState).last_vijay_date ≠ none :=
  C10_lvd_set_after_first
    ⟨"alice", 3, [⟨"a.txt", "a.txt", GitDelta.added⟩]⟩ []
    ⟨[("a.txt", {"Vijay Ganesh", "David L. Dill"})], [("a.txt", 3)],
      {"Vijay Ganesh", "David L. Dill"}, some 3⟩
    (by decide) (by decide)

/-! ### C4: owner sets are encounter-order unions, stable under reordering -/

/-- The identity a change record resolves to after the first commit. -/
def recIdent (r : ChangeRec) : Finset String := transform_name r.author

/-- Every record of the sequence is an `Added` or `Modified` change. -/
def onlyAM (rs : List ChangeRec) : Prop :=
  ∀ r ∈ rs, r.delta.status = GitDelta.added ∨
    r.delta.status = GitDelta.modified

instance (rs : List ChangeRec) : Decidable (onlyAM rs) :=
  inferInstanceAs (Decidable (∀ r ∈ rs, r.delta.status = GitDelta.added ∨
    r.delta.status = GitDelta.modified))

/-- Every record of the sequence is a `Modified` change. -/
def allM (rs : List ChangeRec) : Prop :=
  ∀ r ∈ rs, r.delta.status = GitDelta.modified

/-- The records of a sequence that touch the path `p`. -/
def filterP (p : String) (rs : List ChangeRec) : List ChangeRec :=
  rs.filter (fun r => r.delta.new == p)

/-- The evolution of one path's owner entry along a sequence of `Added`
and `Modified` records touching it. -/
def applyP (o : Option (Finset String)) : List ChangeRec →
    Option (Finset String)
  | [] => o
  | r :: rest =>
    applyP (if r.delta.status = GitDelta.added then some (recIdent r)
            else o.map (· ∪ recIdent r)) rest

/-- Union, in encounter order, of a list of identity sets. -/
def unionIdents (l : List (Finset String)) : Finset String :=
  l.foldl (· ∪ ·) ∅

theorem resolved_contributor_false (a : String) :
    resolved_contributor false a = transform_name a := by
  simp [resolved_contributor]

theorem filterP_cons (p : String) (r : ChangeRec) (rest : List ChangeRec) :
    filterP p (r :: rest) =
      if r.delta.new = p then r :: filterP p rest else filterP p rest := by
  rw [filterP, List.filter_cons]
  by_cases hp : r.delta.new = p
  · rw [if_pos hp, if_pos (by simp [hp])]
    rfl
  · rw [if_neg hp, if_neg (by simp [hp])]
    rfl

/-- Localisation: along a successful `Added`/`Modified` run the owner
entry of each path evolves exactly by `applyP` on its own records. -/
theorem runRecs_owners_loc (rs : List ChangeRec) (s s' : EngineState)
    (p : String) (hAM : onlyAM rs) (hok : runRecs s rs = .ok s') :
    getk s'.owners p = applyP (getk s.owners p) (filterP p rs) := by
  induction rs generalizing s with
  | nil =>
    rw [runRecs] at hok
    injection hok with h
    subst h
    rfl
  | cons r rest ih =>
    rw [runRecs] at hok
    cases hpd : processDelta false r.author r.time s r.delta with
    | error e =>
      rw [hpd] at hok
      cases hok
    | ok s1 =>
      rw [hpd] at hok
      have hrest : onlyAM rest := fun x hx => hAM x (List.mem_cons_of_mem r hx)
      rcases hAM r (List.mem_cons_self r rest) with hA | hM
      · obtain ⟨ho, hg, hs1⟩ :=
          (processDelta_ok_added false r.author r.time s r.delta s1 hA).mp hpd
        subst hs1
        rw [filterP_cons]
        by_cases hp : r.delta.new = p
        · rw [if_pos hp, applyP, if_pos hA, ih _ hrest hok, ← hp,
            getk_setk_self, resolved_contributor_false]
          rfl
        · rw [if_neg hp, ih _ hrest hok,
            getk_setk_ne _ _ _ _ (fun hx => hp hx.symm)]
      · obtain ⟨-, ho, cur, hg, hs1⟩ :=
          (processDelta_ok_modified false r.author r.time s r.delta s1 hM).mp hpd
        subst hs1
        rw [filterP_cons]
        by_cases hp : r.delta.new = p
        · have hMne : ¬(r.delta.status = GitDelta.added) := by simp [hM]
          rw [if_pos hp, applyP, if_neg hMne, ih _ hrest hok, ← hp,
            getk_setk_self, hg]
          rfl
        · rw [if_neg hp, ih _ hrest hok,
            getk_setk_ne _ _ _ _ (fun hx => hp hx.symm)]

/-- Along a successful `Added`/`Modified` run, the records touching a path
that starts non-live form an `Added` record followed by `Modified`
records, and the records touching a live path are all `Modified`. -/
theorem runRecs_owners_shape (rs : List ChangeRec) (s s' : EngineState)
    (p : String) (hAM : onlyAM rs) (hok : runRecs s rs = .ok s') :
    (getk s.owners p = none →
      filterP p rs = [] ∨
      ∃ r rest, filterP p rs = r :: rest ∧
        r.delta.status = GitDelta.added ∧ allM rest)
    ∧ (getk s.owners p ≠ none → allM (filterP p rs)) := by
  induction rs generalizing s with
  | nil =>
    rw [runRecs] at hok
    injection hok with h
    subst h
    exact ⟨fun _ => Or.inl rfl, fun _ r hr => absurd hr (List.not_mem_nil r)⟩
  | cons r rest ih =>
    rw [runRecs] at hok
    cases hpd : processDelta false r.author r.time s r.delta with
    | error e =>
      rw [hpd] at hok
      cases hok
    | ok s1 =>
      rw [hpd] at hok
      have hrest : onlyAM rest := fun x hx => hAM x (List.mem_cons_of_mem r hx)
      rcases hAM r (List.mem_cons_self r rest) with hA | hM
      · obtain ⟨ho, hg, hs1⟩ :=
          (processDelta_ok_added false r.author r.time s r.delta s1 hA).mp hpd
        subst hs1
        constructor
        · intro hnone
          rw [filterP_cons]
          by_cases hp : r.delta.new = p
          · refine Or.inr ⟨r, filterP p rest, by rw [if_pos hp], hA, ?_⟩
            refine (ih _ hrest hok).2 ?_
            rw [← hp, getk_setk_self]
            intro hx
            cases hx
          · rw [if_neg hp]
            refine (ih _ hrest hok).1 ?_
            rw [getk_setk_ne _ _ _ _ (fun hx => hp hx.symm)]
            exact hnone
        · intro hsome
          by_cases hp : r.delta.new = p
          · exact absurd (hp ▸ hg) hsome
          · rw [filterP_cons, if_neg hp]
            refine (ih _ hrest hok).2 ?_
            rw [getk_setk_ne _ _ _ _ (fun hx => hp hx.symm)]
            exact hsome
      · obtain ⟨-, ho, cur, hg, hs1⟩ :=
          (processDelta_ok_modified false r.author r.time s r.delta s1 hM).mp
            hpd
        subst hs1
        constructor
        · intro hnone
          by_cases hp : r.delta.new = p
          · rw [hp, hnone] at hg
            cases hg
          · rw [filterP_cons, if_neg hp]
            refine (ih _ hrest hok).1 ?_
            rw [getk_setk_ne _ _ _ _ (fun hx => hp hx.symm)]
            exact hnone
        · intro hsome
          by_cases hp : r.delta.new = p
          · rw [filterP_cons, if_pos hp]
            intro x hx
            rcases List.mem_cons.mp hx with rfl | hx'
            · exact hM
            · refine (ih _ hrest hok).2 ?_ x hx'
              rw [← hp, getk_setk_self]
              intro hx0
              cases hx0
          · rw [filterP_cons, if_neg hp]
            refine (ih _ hrest hok).2 ?_
            rw [getk_setk_ne _ _ _ _ (fun hx => hp hx.symm)]
            exact hsome

theorem applyP_allM (l : List ChangeRec) (acc : Finset String)
    (h : allM l) :
    applyP (some acc) l =
      some (l.foldl (fun a r => a ∪ recIdent r) acc) := by
  induction l generalizing acc with
  | nil => rfl
  | cons r rest ih =>
    have hM := h r (List.mem_cons_self r rest)
    have hrest : allM rest := fun x hx => h x (List.mem_cons_of_mem r hx)
    have hMne : ¬(r.delta.status = GitDelta.added) := by simp [hM]
    rw [applyP, if_neg hMne, List.foldl_cons]
    exact ih (acc ∪ recIdent r) hrest

theorem unionIdents_cons (r : ChangeRec) (rest : List ChangeRec) :
    unionIdents ((r :: rest).map recIdent) =
      rest.foldl (fun a x => a ∪ recIdent x) (recIdent r) := by
  rw [unionIdents, List.map_cons, List.foldl_cons, Finset.empty_union,
    List.foldl_map]

/-- The final owner entry of every path after an `Added`/`Modified` run
from the initial state: absent when no record touched the path, otherwise
the union in encounter order of the identities of its records. -/
theorem runRecs_owners_from_init (rs : List ChangeRec) (s' : EngineState)
    (hAM : onlyAM rs) (hok : runRecs initState rs = .ok s') (p : String) :
    getk s'.owners p =
      (if filterP p rs = [] then none
       else some (unionIdents ((filterP p rs).map recIdent))) := by
  have hloc := runRecs_owners_loc rs initState s' p hAM hok
  have hshape := (runRecs_owners_shape rs initState s' p hAM hok).1 rfl
  rcases hshape with hnil | ⟨r, rest, heq, hA, hallM⟩
  · rw [hloc, hnil, if_pos rfl]
    rfl
  · rw [hloc, heq, if_neg (by intro hx; cases hx)]
    rw [applyP, if_pos hA, applyP_allM rest (recIdent r) hallM,
      unionIdents_cons]

theorem foldl_union_perm (l₁ l₂ : List (Finset String)) (h : l₁.Perm l₂) :
    ∀ acc : Finset String,
      l₁.foldl (· ∪ ·) acc = l₂.foldl (· ∪ ·) acc := by
  induction h with
  | nil => intro acc; rfl
  | cons x h ih =>
    intro acc
    rw [List.foldl_cons, List.foldl_cons, ih]
  | swap x y l =>
    intro acc
    rw [List.foldl_cons, List.foldl_cons, List.foldl_cons, List.foldl_cons,
      Finset.union_right_comm]
  | trans h1 h2 ih1 ih2 =>
    intro acc
    rw [ih1, ih2]

theorem unionIdents_perm (l₁ l₂ : List (Finset String)) (h : l₁.Perm l₂) :
    unionIdents l₁ = unionIdents l₂ :=
  foldl_union_perm l₁ l₂ h ∅

/-- C4: after a successful run of `Added`/`Modified` records from the
initial state, the owner set of every touched path is the union, in
encounter order, of every identity recorded for that path, and any
successfully processed permutation of the records produces the same final
owner entry for every path. -/
theorem C4_owners_union_perm (rs rs' : List ChangeRec)
    (s₁ s₂ : EngineState) (hAM : onlyAM rs)
    (h1 : runRecs initState rs = .ok s₁) (hperm : rs.Perm rs')
    (h2 : runRecs initState rs' = .ok s₂) :
    (∀ (p : String) (r : ChangeRec), r ∈ rs → r.delta.new = p →
      getk s₁.owners p =
        some (unionIdents ((filterP p rs).map recIdent)))
    ∧ (∀ p : String, getk s₁.owners p = getk s₂.owners p) := by
  have hAM' : onlyAM rs' := fun x hx => hAM x (hperm.symm.subset hx)
  constructor
  · intro p r hr hp
    have hchar := runRecs_owners_from_init rs s₁ hAM h1 p
    have hmem : r ∈ filterP p rs :=
      List.mem_filter.mpr ⟨hr, by simp [hp]⟩
    have hne : filterP p rs ≠ [] := by
      intro h0
      rw [h0] at hmem
      exact absurd hmem (List.not_mem_nil r)
    rw [hchar, if_neg hne]
  · intro p
    have hchar1 := runRecs_owners_from_init rs s₁ hAM h1 p
    have hchar2 := runRecs_owners_from_init rs' s₂ hAM' h2 p
    have hpf : (filterP p rs).Perm (filterP p rs') := hperm.filter _
    rw [hchar1, hchar2]
    by_cases h0 : filterP p rs = []
    · have h0' : filterP p rs' = [] := List.Perm.eq_nil (h0 ▸ hpf).symm
      rw [if_pos h0, if_pos h0']
    · have h0' : filterP p rs' ≠ [] := by
        intro hx
        exact h0 (List.Perm.eq_nil (hx ▸ hpf))
      rw [if_neg h0, if_neg h0']
      congr 1
      exact unionIdents_perm _ _ (hpf.map recIdent)

/-- Witness for C4: adding `a.txt` and modifying it twice, in either
order of the two modifications, gives the same three-name owner set. -/
theorem C4_owners_union_perm_witness :
    getk (⟨[("a.txt", {"Alice", "Bob", "Carol"})], [("a.txt", 1)],
        {"Alice", "Bob", "Carol"}, none⟩ : EngineState).owners "a.txt" =
      some (unionIdents ((filterP "a.txt"
        [⟨"alice", 1, ⟨"a.txt", "a.txt", GitDelta.added⟩⟩,
          ⟨"bob", 2, ⟨"a.txt", "a.txt", GitDelta.modified⟩⟩,
          ⟨"carol", 3, ⟨"a.txt", "a.txt", GitDelta.modified⟩⟩]).map
            recIdent)) ∧
    getk (⟨[("a.txt", {"Alice", "Bob", "Carol"})], [("a.txt", 1)],
        {"Alice", "Bob", "Carol"}, none⟩ : EngineState).owners "a.txt" =
      getk (⟨[("a.txt", {"Alice", "Carol", "Bob"})], [("a.txt", 1)],
        {"Alice", "Carol", "Bob"}, none⟩ : EngineState).owners "a.txt" := by
  have h := C4_owners_union_perm
    [⟨"alice", 1, ⟨"a.txt", "a.txt", GitDelta.added⟩⟩,
      ⟨"bob", 2, ⟨"a.txt", "a.txt", GitDelta.modified⟩⟩,
      ⟨"carol", 3, ⟨"a.txt", "a.txt", GitDelta.modified⟩⟩]
    [⟨"alice", 1, ⟨"a.txt", "a.txt", GitDelta.added⟩⟩,
      ⟨"carol", 3, ⟨"a.txt", "a.txt", GitDelta.modified⟩⟩,
      ⟨"bob", 2, ⟨"a.txt", "a.txt", GitDelta.modified⟩⟩]
    ⟨[("a.txt", {"Alice", "Bob", "Carol"})], [("a.txt", 1)],
      {"Alice", "Bob", "Carol"}, none⟩
    ⟨[("a.txt", {"Alice", "Carol", "Bob"})], [("a.txt", 1)],
      {"Alice", "Carol", "Bob"}, none⟩
    (by decide) (by decide) (by decide) (by decide)
  exact ⟨h.1 "a.txt" ⟨"alice", 1, ⟨"a.txt", "a.txt", GitDelta.added⟩⟩
      (by decide) rfl, h.2 "a.txt"⟩
